import Mathlib

/-!
Verification of the CIS-benchmark PDF-to-spreadsheet converter
(`cis_pdf_to_excel_converter.py`) against its natural-language
specification.

The converter's core is pure text processing: per-page text goes through
regex-based record-boundary detection and label-bounded field segmentation,
then deduplication, numeric sorting, section grouping and sheet naming.
We shallowly embed that pipeline over `List Char`, mirroring the Python
regular expressions' leftmost-match / greedy / lazy backtracking semantics
by explicit recursive scanners, and prove the specification's claims about
it.  Python `re` constructs are embedded as follows:

* `re.search(label + r'\s*(.+?)(?:\nA:|\nB:)', content, re.DOTALL)`:
  at a candidate occurrence of `label`, the greedy `\s*` keeps as much of
  the maximal whitespace run as still leaves a terminator occurrence
  strictly after at least one captured character; the lazy `(.+?)` then
  stops at the earliest terminator occurrence.  If no terminator position
  works, the scan resumes one character further right (`fieldAt`,
  `searchField`).
* the recommendation-header regex
  `(?:^|\n)(\d+(?:\.\d+)+)\s+([A-Z][^\n]+?)\s*\((Automated|...)\)` is
  matched by `matchHeaderAt` at string start and after each newline.
  `re.finditer`'s non-overlap rule needs no special handling: inside a
  successful match, every newline sits in a `\s+`/`\s*` region and is
  followed by whitespace, `[A-Z]` or `(`, never by a digit, so a header
  match can never start inside another match's span (`scanHeaders`).
-/

namespace CIS

/-- Page text and all record fields are character lists. -/
abbrev Str := List Char

/-- Python regex `\s` / `str.strip` whitespace, restricted to its ASCII part
(the inputs of interest are ASCII). -/
def isSpaceC (c : Char) : Bool :=
  c == ' ' || c == '\t' || c == '\n' || c == '\r' || c == '\x0b' || c == '\x0c'

/-- Python regex `\d`, ASCII decimal digits. -/
def isDigitC (c : Char) : Bool := '0' ≤ c && c ≤ '9'

/-- The regex character class `[A-Z]`. -/
def isUpperC (c : Char) : Bool := 'A' ≤ c && c ≤ 'Z'

/-- Literal-prefix test: does `s` start with pattern `p`? -/
def startsWith : Str → Str → Bool
  | [], _ => true
  | _ :: _, [] => false
  | p :: ps, c :: cs => p == c && startsWith ps cs

/-- Case-insensitive literal-prefix test (for `re.IGNORECASE` literals). -/
def startsWithCI : Str → Str → Bool
  | [], _ => true
  | _ :: _, [] => false
  | p :: ps, c :: cs => p.toLower == c.toLower && startsWithCI ps cs

/-- Python `str.strip()`: remove leading and trailing whitespace. -/
def strip (s : Str) : Str :=
  ((s.dropWhile isSpaceC).reverse.dropWhile isSpaceC).reverse

/-- Python `str.split(sep)` for a one-character separator. -/
def splitOnCh (sep : Char) : Str → List Str
  | [] => [[]]
  | c :: rest =>
    if c = sep then [] :: splitOnCh sep rest
    else
      match splitOnCh sep rest with
      | h :: t => (c :: h) :: t
      | [] => [[c]]

/-- `num.split('.')` from the sort key and the section grouping. -/
def splitOnDot (s : Str) : List Str := splitOnCh '.' s

/-- Numeric value of a digit string. -/
def digitsToNat (s : Str) : Nat := s.foldl (fun a c => 10 * a + (c.toNat - 48)) 0

/-- Python `int(s)` restricted to plain nonempty digit strings (the only
shape the pipeline feeds it); anything else is a conversion failure. -/
def parseIntStrict (s : Str) : Option Nat :=
  if s ≠ [] ∧ s.all isDigitC = true then some (digitsToNat s) else none

/-! ### Field segmentation (`_extract_recommendation_details`) -/

/-- All positions in `u` at which one of the literal terminators of a field
regex (e.g. `\nRationale:`) starts, in ascending order. -/
def termPositions (terms : List Str) : Str → List Nat
  | [] => if terms.any (fun p => startsWith p []) then [0] else []
  | c :: rest =>
    let tailPos := (termPositions terms rest).map (· + 1)
    if terms.any (fun p => startsWith p (c :: rest)) then 0 :: tailPos else tailPos

/-- Group 1 of `\s*(.+?)(?:T₁|T₂|...)` (DOTALL) matched at the start of `u`:
the greedy `\s*` takes the largest amount `w` of the leading whitespace run
that still leaves some terminator strictly beyond position `w`, and the lazy
`(.+?)` then ends at the first terminator after `w`. -/
def fieldAt (terms : List Str) (u : Str) : Option Str :=
  let wmax := (u.takeWhile isSpaceC).length
  let ts := termPositions terms u
  match ts.getLast? with
  | none => none
  | some tmax =>
    if tmax = 0 then none
    else
      let w := min wmax (tmax - 1)
      match (ts.filter (fun t => w + 1 ≤ t)).head? with
      | some t => some ((u.drop w).take (t - w))
      | none => none

/-- `re.search(label + r'\s*(.+?)(?:T₁|T₂|...)', content, re.DOTALL)`,
returning group 1: try every position left to right; at an occurrence of
the literal `label`, accept `fieldAt`'s group if the tail admits one. -/
def searchField (label : Str) (terms : List Str) : Str → Option Str
  | [] => none
  | c :: rest =>
    if startsWith label (c :: rest) then
      match fieldAt terms ((c :: rest).drop label.length) with
      | some g => some g
      | none => searchField label terms rest
    else searchField label terms rest

/-- Group 1 of `re.search(r'•?\s*(Level \d+|Profile Applicability)', content)`.
The optional bullet and `\s*` only move the match start left, never change
the captured group, so this is the leftmost occurrence of either
alternative (`Level ` must be followed by at least one digit, captured
greedily). -/
def searchProfile : Str → Option Str
  | [] => none
  | c :: rest =>
    if startsWith "Level ".data (c :: rest) then
      let ds := ((c :: rest).drop 6).takeWhile isDigitC
      if ds = [] then searchProfile rest else some ("Level ".data ++ ds)
    else if startsWith "Profile Applicability".data (c :: rest) then
      some "Profile Applicability".data
    else searchProfile rest

/-! ### Recommendation-header detection (`extract_recommendations`) -/

/-- Greedy parse of `\d+(\.\d+)*` from a string whose first character is a
digit: the dot-separated digit components and the unconsumed rest.  A dot
is consumed only when at least one digit follows, exactly as backtracking
leaves it. -/
def parseCompsGo : Str → Str → List Str × Str
  | [], acc => ([acc.reverse], [])
  | c :: v, acc =>
    if isDigitC c then parseCompsGo v (c :: acc)
    else if c = '.' then
      match v with
      | d :: _ =>
        if isDigitC d then
          match parseCompsGo v [] with
          | (cs, r) => (acc.reverse :: cs, r)
        else ([acc.reverse], c :: v)
      | [] => ([acc.reverse], [c])
    else ([acc.reverse], c :: v)

/-- Rebuild the dotted identifier from its components (group 1 of the
header regex). -/
def intercalateDot : List Str → Str
  | [] => []
  | [c] => c
  | c :: cs => c ++ '.' :: intercalateDot cs

/-- The status alternation of the header regex, in source order. -/
def statusList : List Str :=
  ["Automated".data, "Manual".data, "Scored".data, "Not Scored".data]

/-- Try each status alternative followed by the closing parenthesis;
returns the status text and the rest after `)`. -/
def tryStatus : List Str → Str → Option (Str × Str)
  | [], _ => none
  | st :: alts, w =>
    if startsWith st w then
      match w.drop st.length with
      | ')' :: r => some (st, r)
      | _ => tryStatus alts w
    else tryStatus alts w

/-- `\s*\((Automated|Manual|Scored|Not Scored)\)` at the start of `v`.
Since `(` is not whitespace, the greedy `\s*` must consume exactly the
maximal whitespace run. -/
def findStatusAt (v : Str) : Option (Str × Str) :=
  match v.drop (v.takeWhile isSpaceC).length with
  | '(' :: w => tryStatus statusList w
  | _ => none

/-- The lazy `[^\n]+?\s*\((...)\)` tail of the header regex: `acc` holds the
(reversed) title captured so far (at least two characters); extend it one
non-newline character at a time until the status group matches. -/
def titleLoop : Str → Str → Option (Str × Str × Str)
  | _, [] => none
  | acc, c :: v =>
    match findStatusAt (c :: v) with
    | some (st, rest) => some (acc.reverse, st, rest)
    | none => if c = '\n' then none else titleLoop (c :: acc) v

/-- Header regex body after the `(?:^|\n)` anchor:
`(\d+(?:\.\d+)+)\s+([A-Z][^\n]+?)\s*\((Automated|Manual|Scored|Not Scored)\)`.
Returns the dotted number, the raw title group, the status, and the rest of
the page after the closing parenthesis. -/
def matchHeaderAt (u : Str) : Option (Str × Str × Str × Str) :=
  match u with
  | [] => none
  | c :: _ =>
    if isDigitC c then
      match parseCompsGo u [] with
      | (comps, r1) =>
        if comps.length < 2 then none
        else
          let ws := r1.takeWhile isSpaceC
          if ws = [] then none
          else
            match r1.drop ws.length with
            | c0 :: c1 :: r3 =>
              if isUpperC c0 then
                if c1 = '\n' then none
                else
                  match titleLoop [c1, c0] r3 with
                  | some (t, s, rest) => some (intercalateDot comps, t, s, rest)
                  | none => none
              else none
            | _ => none
    else none

/-- Matches anchored at each newline; attaches the 3500-character content
window (`text[match.end():match.end()+3500]`) to each match. -/
def scanHeaders : Str → List (Str × Str × Str × Str)
  | [] => []
  | c :: rest =>
    if c = '\n' then
      match matchHeaderAt rest with
      | some (n, t, s, after) => (n, t, s, after.take 3500) :: scanHeaders rest
      | none => scanHeaders rest
    else scanHeaders rest

/-- All header matches of one page, in order: the `^` anchor at position 0,
then the `\n` anchors. -/
def findHeaders (text : Str) : List (Str × Str × Str × Str) :=
  match matchHeaderAt text with
  | some (n, t, s, after) => (n, t, s, after.take 3500) :: scanHeaders text
  | none => scanHeaders text

/-- One extracted recommendation record. -/
structure Rec where
  num : Str
  title : Str
  profile : Str
  status : Str
  description : Str
  rationale : Str
  impact : Str
  audit : Str
  remediation : Str
  default_value : Str
  references : Str
  deriving DecidableEq

/-- `_extract_recommendation_details`: label-bounded segmentation of the
content window, each field stripped and truncated to its cap. -/
def extractDetails (num title status content : Str) : Rec :=
  let profile := (searchProfile content).getD "Level 1".data
  let description :=
    ((searchField "Description:".data
      ["\nRationale:".data, "\nImpact:".data, "\nAudit:".data] content).map strip).getD []
  let rationale :=
    ((searchField "Rationale:".data
      ["\nImpact:".data, "\nAudit:".data] content).map strip).getD []
  let impact :=
    ((searchField "Impact:".data
      ["\nAudit:".data, "\nRemediation:".data] content).map strip).getD []
  let audit :=
    ((searchField "Audit:".data
      ["\nRemediation:".data, "\nDefault Value:".data] content).map strip).getD []
  let remediation :=
    ((searchField "Remediation:".data
      ["\nDefault Value:".data, "\nImpact:".data, "\nReferences:".data] content).map strip).getD []
  let default_value :=
    ((searchField "Default Value:".data
      ["\nReferences:".data, "\nCIS Controls:".data] content).map strip).getD []
  let references :=
    ((searchField "References:".data
      ["\nCIS Controls:".data, "\nAdditional Information:".data] content).map strip).getD []
  { num := num, title := title, profile := profile, status := status,
    description := description.take 1500,
    rationale := rationale.take 1000,
    impact := impact.take 1000,
    audit := audit.take 2500,
    remediation := remediation.take 1500,
    default_value := default_value.take 500,
    references := references.take 800 }

/-! ### Start-page detection (`find_recommendations_start_page`) -/

/-- `\s+[A-Z]`: a nonempty whitespace run followed by a capital letter. -/
def afterWsUpper (v : Str) : Bool :=
  match v.drop (v.takeWhile isSpaceC).length with
  | c :: _ => !(v.takeWhile isSpaceC).isEmpty && isUpperC c
  | [] => false

/-- The optional group `\.\d+` of the start pattern, taken greedily, then
`\s+[A-Z]`. -/
def dotDigitsCase : Str → Bool
  | [] => false
  | c :: w =>
    if c = '.' then
      !(w.takeWhile isDigitC).isEmpty && afterWsUpper (w.drop (w.takeWhile isDigitC).length)
    else false

/-- `1\.1(?:\.\d+)?\s+[A-Z]` at the start of `u`.  Backtracking is settled:
if the optional group is taken, `\s+` fails on the leftover `.`, so the two
alternatives can be tested independently. -/
def checkStartPat (u : Str) : Bool :=
  startsWith "1.1".data u && (dotDigitsCase (u.drop 3) || afterWsUpper (u.drop 3))

/-- `re.search(r'\n1\.1(?:\.\d+)?\s+[A-Z]', text) is not None`. -/
def pageHasStart : Str → Bool
  | [] => false
  | c :: rest =>
    if c = '\n' then checkStartPat rest || pageHasStart rest else pageHasStart rest

/-- The scan loop over the (at most 30) pages, carrying the page index. -/
def findStartGo : List Str → Nat → Nat
  | [], _ => 15
  | t :: rest, i => if pageHasStart t then i else findStartGo rest (i + 1)

/-- `find_recommendations_start_page`: index of the first matching page
among the first 30, page index 15 as the fallback. -/
def findStartPage (pages : List Str) : Nat := findStartGo (pages.take 30) 0

/-! ### Record list assembly (`extract_recommendations`) -/

/-- The per-page match loop: every header match whose segmented record has
a nonempty audit field, pages taken from the detected start page on. -/
def extractRaw (pages : List Str) : List Rec :=
  (pages.drop (findStartPage pages)).flatMap (fun text =>
    (findHeaders text).filterMap (fun m =>
      match m with
      | (n, t, s, c) =>
        let r := extractDetails n (strip t) s c
        if r.audit ≠ [] then some r else none))

/-- `_remove_duplicates`, generalised over the `seen` set. -/
def dedupGo (seen : List Str) : List Rec → List Rec
  | [] => []
  | r :: rs => if r.num ∈ seen then dedupGo seen rs else r :: dedupGo (r.num :: seen) rs

/-- `_remove_duplicates`: keep the first record of each `num`. -/
def removeDuplicates (l : List Rec) : List Rec := dedupGo [] l

/-- Python `<` on lists of integers: lexicographic, a proper prefix is
smaller. -/
def keyLt : List Nat → List Nat → Bool
  | _, [] => false
  | [], _ :: _ => true
  | a :: as, b :: bs => if a < b then true else if b < a then false else keyLt as bs

/-- `[int(p) for p in num.split('.')]` with the conversion's partiality. -/
def seqComps : List Str → Option (List Nat)
  | [] => some []
  | c :: cs =>
    match parseIntStrict c, seqComps cs with
    | some n, some ns => some (n :: ns)
    | _, _ => none

/-- The sort key of a record, `none` on a malformed component. -/
def numKeyO (r : Rec) : Option (List Nat) := seqComps (splitOnDot r.num)

/-- The sort key where it is defined (all records reaching the sort have
well-formed keys). -/
def numKeyD (r : Rec) : List Nat := (numKeyO r).getD []

/-- Stable insertion: a record goes after every record whose key is not
greater, matching Python's stable ascending sort. -/
def insertRec (x : Rec) : List Rec → List Rec
  | [] => [x]
  | y :: ys => if keyLt (numKeyD y) (numKeyD x) then y :: insertRec x ys else x :: y :: ys

/-- Stable insertion sort by numeric key (`self.recommendations.sort`). -/
def isortRecs (l : List Rec) : List Rec := l.foldr insertRec []

/-- `extract_recommendations`: raw matches, deduplication, then the sort —
`none` when some record's key conversion would raise. -/
def extractRecommendations (pages : List Str) : Option (List Rec) :=
  let uniq := removeDuplicates (extractRaw pages)
  if uniq.all (fun r => (numKeyO r).isSome) then some (isortRecs uniq) else none

/-! ### Section grouping (`organize_by_section`) -/

/-- `num.split('.')[0]`. -/
def leadComp (s : Str) : Str := (splitOnDot s).headD []

/-- Append a record to the group of its key, creating the group at the end
if absent (insertion-ordered dict). -/
def addToSection : List (Str × List Rec) → Str → Rec → List (Str × List Rec)
  | [], k, r => [(k, [r])]
  | (k', g) :: t, k, r =>
    if k' = k then (k', g ++ [r]) :: t else (k', g) :: addToSection t k r

/-- `organize_by_section`: partition the record list by leading component,
preserving record order inside each group and first-appearance order of
the groups. -/
def organizeBySection (recs : List Rec) : List (Str × List Rec) :=
  recs.foldl (fun secs r => addToSection secs (leadComp r.num) r) []

/-! ### Workbook generation (`ExcelWorkbookGenerator`) -/

/-- Association-list lookup (Python dict `get`). -/
def alookup {α : Type} : List (Str × α) → Str → Option α
  | [], _ => none
  | (k, v) :: t, q => if k = q then some v else alookup t q

/-- The static section-name table. -/
def SECTION_NAMES : List (Str × Str) :=
  [("1".data, "Initial Setup".data),
   ("2".data, "System Configuration".data),
   ("3".data, "Network & Services".data),
   ("4".data, "Security Profiles".data),
   ("5".data, "Access Control".data),
   ("6".data, "Authentication".data),
   ("7".data, "Logging & Monitoring".data),
   ("8".data, "System Maintenance".data),
   ("9".data, "Additional Hardening".data)]

/-- `SECTION_NAMES.get(sec_num, f'Section {sec_num}')`. -/
def sectionDisplayName (k : Str) : Str :=
  (alookup SECTION_NAMES k).getD ("Section ".data ++ k)

/-- The Tab Name cell of the index sheet: `f"{sec_num}. {sec_name}"[:31]`
(from `create_index_sheet`). -/
def indexTabName (k : Str) : Str :=
  (k ++ ". ".data ++ sectionDisplayName k).take 31

/-- The name of the sheet actually created for a section:
`f"{section_num}. {section_name}"[:31]` (from `create_section_sheet`). -/
def sectionSheetName (k : Str) : Str :=
  (k ++ ". ".data ++ sectionDisplayName k).take 31

/-- The composed Description & Impact cell of `_add_recommendation_row`. -/
def descFull (r : Rec) : Str :=
  r.description
    ++ (if r.rationale ≠ [] then "\n\nRATIONALE:\n".data ++ r.rationale else [])
    ++ (if r.impact ≠ [] then "\n\nIMPACT:\n".data ++ r.impact else [])

/-- `len(s.split('\n'))`. -/
def lineCount (s : Str) : Nat := (splitOnCh '\n' s).length

/-- The maximal line count over the three wrapped cells of a row. -/
def maxLines (r : Rec) : Nat :=
  max (lineCount (descFull r)) (max (lineCount r.audit) (lineCount r.remediation))

/-- `min(max(max_lines * 14, 80), 350)`: the row height set by
`_add_recommendation_row`. -/
def rowHeight (r : Rec) : Nat := min (max (maxLines r * 14) 80) 350

/-! ### Metadata detection (`extract_metadata`) -/

/-- `\s+Benchmark` (case-insensitive literal) at the start of `v`. -/
def benchAfterWs (v : Str) : Bool :=
  let ws := v.takeWhile isSpaceC
  !ws.isEmpty && startsWithCI "Benchmark".data (v.drop ws.length)

/-- Length of the lazy group `(.+?)` before `\s+Benchmark`: the smallest
positive `e` such that the first `e` characters contain no newline and
`\s+Benchmark` matches right after them. -/
def gLen : Str → Option Nat
  | [] => none
  | c :: rest =>
    if c = '\n' then none
    else if benchAfterWs rest then some 1
    else (gLen rest).map (· + 1)

/-- Backtracking of the greedy `\s+` after `CIS`: try the whole whitespace
run first, then shorter nonempty prefixes. -/
def tryW : Nat → Str → Option Str
  | 0, _ => none
  | w + 1, u =>
    match gLen (u.drop (w + 1)) with
    | some e => some ((u.drop (w + 1)).take e)
    | none => tryW w u

/-- Group 1 of `\s+(.+?)\s+Benchmark` matched directly after `CIS`. -/
def titleGroupAt (u : Str) : Option Str := tryW (u.takeWhile isSpaceC).length u

/-- Group 1 of `re.search(r'CIS\s+(.+?)\s+Benchmark', text, re.IGNORECASE)`. -/
def searchTitle : Str → Option Str
  | [] => none
  | c :: rest =>
    if startsWithCI "CIS".data (c :: rest) then
      match titleGroupAt ((c :: rest).drop 3) with
      | some g => some g
      | none => searchTitle rest
    else searchTitle rest

/-- `v(\d+\.\d+\.\d+)` at the start of `u`, returning group 1. -/
def versionAt (u : Str) : Option Str :=
  match u with
  | 'v' :: v =>
    let d1 := v.takeWhile isDigitC
    if d1 = [] then none
    else
      match v.drop d1.length with
      | '.' :: v2 =>
        let d2 := v2.takeWhile isDigitC
        if d2 = [] then none
        else
          match v2.drop d2.length with
          | '.' :: v3 =>
            let d3 := v3.takeWhile isDigitC
            if d3 = [] then none
            else some (d1 ++ '.' :: d2 ++ '.' :: d3)
          | _ => none
      | _ => none
  | _ => none

/-- Group 1 of `re.search(r'v(\d+\.\d+\.\d+)', text)`. -/
def searchVersion : Str → Option Str
  | [] => none
  | c :: rest =>
    match versionAt (c :: rest) with
    | some g => some g
    | none => searchVersion rest

/-- One page of the metadata loop: a found pattern overwrites the field,
otherwise it is kept. -/
def metaStep (acc : Str × Str) (text : Str) : Str × Str :=
  (match searchTitle text with
   | some g => "CIS ".data ++ g ++ " Benchmark".data
   | none => acc.1,
   match searchVersion text with
   | some g => 'v' :: g
   | none => acc.2)

/-- `extract_metadata`: scan the first five pages, later matches win,
both fields start empty. -/
def extractMetadata (pages : List Str) : Str × Str :=
  (pages.take 5).foldl metaStep ([], [])

/-! ### End-to-end pipeline (`main` / `generate`) -/

/-- Stable insertion for `sorted(keys, key=int)`. -/
def insertNK (x : Nat × Str) : List (Nat × Str) → List (Nat × Str)
  | [] => [x]
  | y :: ys => if y.1 < x.1 then y :: insertNK x ys else x :: y :: ys

/-- Stable ascending sort of decorated keys. -/
def isortNK (l : List (Nat × Str)) : List (Nat × Str) := l.foldr insertNK []

/-- Decorate every section key with `int(key)`; `none` if a conversion
would raise. -/
def seqKeys : List (Str × List Rec) → Option (List (Nat × Str))
  | [] => some []
  | (k, _) :: t =>
    match parseIntStrict k, seqKeys t with
    | some n, some ns => some ((n, k) :: ns)
    | _, _ => none

/-- `sorted(sections.keys(), key=int)`. -/
def sortedSectionKeys (sections : List (Str × List Rec)) : Option (List Str) :=
  (seqKeys sections).map (fun nks => (isortNK nks).map (fun nk => nk.2))

/-- The observable output of a run: the detected metadata and the sheet
names of the generated workbook (index sheet first, then one sheet per
section in ascending key order); `none` models an uncaught exception. -/
def runPipeline (pages : List Str) : Option ((Str × Str) × List Str) :=
  match extractRecommendations pages with
  | none => none
  | some recs =>
    match sortedSectionKeys (organizeBySection recs) with
    | none => none
    | some ks => some (extractMetadata pages, "📑 INDEX".data :: ks.map sectionSheetName)

/-! ### Spec-side predicates (for refinement claims) -/

/-- Modelled from the spec's words for start-page detection: the text
begins (after the newline) with `1.1`, optionally `.` and further digits,
then nonempty whitespace and a capital letter. -/
def SpecStartTail (post : Str) : Prop :=
  ∃ opt ws c rest,
    post = "1.1".data ++ opt ++ ws ++ c :: rest ∧
    (opt = [] ∨ ∃ ds, ds ≠ [] ∧ (∀ d ∈ ds, isDigitC d = true) ∧ opt = '.' :: ds) ∧
    ws ≠ [] ∧ (∀ x ∈ ws, isSpaceC x = true) ∧ isUpperC c = true

/-- Modelled from the spec's words: some newline of the page text is
immediately followed by the start pattern. -/
def SpecStartPage (t : Str) : Prop :=
  ∃ pre rest, t = pre ++ '\n' :: rest ∧ SpecStartTail rest

/-! ## Lemmas: the lexicographic key order -/

theorem keyLt_irrefl (a : List Nat) : keyLt a a = false := by
  induction a with
  | nil => rfl
  | cons x xs ih => simp [keyLt, ih]

theorem keyLt_asymm {a b : List Nat} (h : keyLt a b = true) : keyLt b a = false := by
  induction a generalizing b with
  | nil =>
    cases b with
    | nil => simp [keyLt] at h
    | cons y ys => simp [keyLt]
  | cons x xs ih =>
    cases b with
    | nil => simp [keyLt] at h
    | cons y ys =>
      simp only [keyLt] at h ⊢
      by_cases h1 : x < y
      · simp [Nat.lt_asymm h1, h1]
      · by_cases h2 : y < x
        · simp [h1, h2] at h
        · simp [h1, h2] at h ⊢
          exact ih h

theorem keyLt_nlt_trans {a b c : List Nat} (hab : keyLt a b = false)
    (hbc : keyLt b c = false) : keyLt a c = false := by
  induction a generalizing b c with
  | nil =>
    cases c with
    | nil => rfl
    | cons z zs =>
      cases b with
      | nil => simp [keyLt] at hbc
      | cons y ys => simp [keyLt] at hab
  | cons x xs ih =>
    cases c with
    | nil => rfl
    | cons z zs =>
      cases b with
      | nil => simp [keyLt] at hbc
      | cons y ys =>
        simp only [keyLt] at hab hbc ⊢
        by_cases h1 : x < y
        · simp [h1] at hab
        · by_cases h2 : y < z
          · simp [h2] at hbc
          · have hxz : ¬ x < z := by omega
            by_cases h3 : z < x
            · simp [hxz, h3]
            · have hyx : ¬ y < x := by omega
              have hzy : ¬ z < y := by omega
              simp [h1, hyx] at hab
              simp [h2, hzy] at hbc
              simp [hxz, h3]
              exact ih hab hbc

theorem keyLt_connex {a b : List Nat} (h : a ≠ b) :
    keyLt a b = true ∨ keyLt b a = true := by
  induction a generalizing b with
  | nil =>
    cases b with
    | nil => exact absurd rfl h
    | cons y ys => left; rfl
  | cons x xs ih =>
    cases b with
    | nil => right; rfl
    | cons y ys =>
      by_cases hxy : x = y
      · subst hxy
        have hne : xs ≠ ys := fun hh => h (by rw [hh])
        rcases ih hne with h1 | h1
        · left; simp [keyLt, h1]
        · right; simp [keyLt, h1]
      · rcases Nat.lt_or_ge x y with h1 | h1
        · left; simp [keyLt, h1]
        · right
          have h2 : y < x := Nat.lt_of_le_of_ne h1 (fun hh => hxy hh.symm)
          simp [keyLt, h2, Nat.not_lt.mpr (Nat.le_of_lt h2)]

/-! ## Lemmas: the stable insertion sort -/

theorem mem_insertRec {x y : Rec} {l : List Rec} :
    x ∈ insertRec y l ↔ x = y ∨ x ∈ l := by
  induction l with
  | nil => simp [insertRec]
  | cons z zs ih =>
    simp only [insertRec]
    split_ifs with h
    · simp only [List.mem_cons, ih]
      try tauto
    · simp only [List.mem_cons]
      try tauto

theorem mem_isortRecs {x : Rec} {l : List Rec} : x ∈ isortRecs l ↔ x ∈ l := by
  induction l with
  | nil => simp [isortRecs]
  | cons z zs ih =>
    simp only [isortRecs, List.foldr_cons] at *
    rw [mem_insertRec, ih, List.mem_cons]

theorem perm_insertRec (x : Rec) (l : List Rec) : (insertRec x l).Perm (x :: l) := by
  induction l with
  | nil => simp [insertRec]
  | cons z zs ih =>
    simp only [insertRec]
    split_ifs with h
    · exact ((ih.cons z).trans (List.Perm.swap x z zs))
    · exact List.Perm.refl _

theorem perm_isortRecs (l : List Rec) : (isortRecs l).Perm l := by
  induction l with
  | nil => simp [isortRecs]
  | cons z zs ih =>
    simp only [isortRecs, List.foldr_cons] at *
    exact (perm_insertRec z _).trans (ih.cons z)

/-- Being sorted ascending: no later record's key is below an earlier one's. -/
def recSortedRel (a b : Rec) : Prop := keyLt (numKeyD b) (numKeyD a) = false

theorem pairwise_insertRec {x : Rec} {l : List Rec}
    (h : l.Pairwise recSortedRel) : (insertRec x l).Pairwise recSortedRel := by
  induction l with
  | nil => simp [insertRec, recSortedRel]
  | cons z zs ih =>
    rcases List.pairwise_cons.mp h with ⟨hz, hzs⟩
    simp only [insertRec]
    split_ifs with hlt
    · refine List.pairwise_cons.mpr ⟨?_, ih hzs⟩
      intro a ha
      rcases mem_insertRec.mp ha with rfl | ha'
      · exact keyLt_asymm hlt
      · exact hz a ha'
    · refine List.pairwise_cons.mpr ⟨?_, h⟩
      intro a ha
      rcases List.mem_cons.mp ha with rfl | ha'
      · simpa [recSortedRel] using hlt
      · have hza := hz a ha'
        have : keyLt (numKeyD z) (numKeyD x) = false := by
          simpa using hlt
        exact keyLt_nlt_trans hza this

theorem pairwise_isortRecs (l : List Rec) : (isortRecs l).Pairwise recSortedRel := by
  induction l with
  | nil => simp [isortRecs]
  | cons z zs ih =>
    simp only [isortRecs, List.foldr_cons] at *
    exact pairwise_insertRec ih

/-! ## Lemmas: deduplication -/

theorem dedupGo_subset {seen : List Str} {l : List Rec} {r : Rec}
    (h : r ∈ dedupGo seen l) : r ∈ l := by
  induction l generalizing seen with
  | nil => simp [dedupGo] at h
  | cons z zs ih =>
    simp only [dedupGo] at h
    split_ifs at h with hz
    · exact List.mem_cons_of_mem _ (ih h)
    · rcases List.mem_cons.mp h with rfl | h'
      · exact List.mem_cons_self _ _
      · exact List.mem_cons_of_mem _ (ih h')

theorem dedupGo_notin_seen {seen : List Str} {l : List Rec} {r : Rec}
    (h : r ∈ dedupGo seen l) : r.num ∉ seen := by
  induction l generalizing seen with
  | nil => simp [dedupGo] at h
  | cons z zs ih =>
    simp only [dedupGo] at h
    split_ifs at h with hz
    · exact ih h
    · rcases List.mem_cons.mp h with rfl | h'
      · exact hz
      · intro hmem
        exact ih h' (List.mem_cons_of_mem _ hmem)

theorem dedupGo_pairwise (seen : List Str) (l : List Rec) :
    (dedupGo seen l).Pairwise (fun a b => a.num ≠ b.num) := by
  induction l generalizing seen with
  | nil => simp [dedupGo]
  | cons z zs ih =>
    simp only [dedupGo]
    split_ifs with hz
    · exact ih seen
    · refine List.pairwise_cons.mpr ⟨?_, ih _⟩
      intro a ha
      have := dedupGo_notin_seen ha
      intro heq
      exact this (by rw [← heq]; exact List.mem_cons_self _ _)

theorem removeDuplicates_subset {l : List Rec} {r : Rec}
    (h : r ∈ removeDuplicates l) : r ∈ l := dedupGo_subset h

theorem removeDuplicates_pairwise (l : List Rec) :
    (removeDuplicates l).Pairwise (fun a b => a.num ≠ b.num) := dedupGo_pairwise [] l

/-! ## Lemmas: character classes -/

theorem isDigitC_ne_dot {x : Char} (h : isDigitC x = true) : x ≠ '.' := by
  intro heq; subst heq; exact absurd h (by decide)

theorem isDigitC_not_space {x : Char} (h : isDigitC x = true) : isSpaceC x = false := by
  cases hs : isSpaceC x
  · rfl
  · exfalso
    simp only [isSpaceC, Bool.or_eq_true, beq_iff_eq] at hs
    rcases hs with ((((h1 | h1) | h1) | h1) | h1) | h1 <;> subst h1 <;> exact absurd h (by decide)

theorem isUpperC_not_space {x : Char} (h : isUpperC x = true) : isSpaceC x = false := by
  cases hs : isSpaceC x
  · rfl
  · exfalso
    simp only [isSpaceC, Bool.or_eq_true, beq_iff_eq] at hs
    rcases hs with ((((h1 | h1) | h1) | h1) | h1) | h1 <;> subst h1 <;> exact absurd h (by decide)

/-! ## Lemmas: splitting on a separator -/

theorem splitOnCh_ne_nil (sep : Char) (s : Str) : splitOnCh sep s ≠ [] := by
  cases s with
  | nil => simp [splitOnCh]
  | cons c rest =>
    simp only [splitOnCh]
    split_ifs
    · simp
    · cases h : splitOnCh sep rest <;> simp

theorem splitOnCh_no_sep {sep : Char} {a : Str} (h : ∀ x ∈ a, x ≠ sep) :
    splitOnCh sep a = [a] := by
  induction a with
  | nil => rfl
  | cons c rest ih =>
    have hc : c ≠ sep := h c (List.mem_cons_self _ _)
    have hrest : splitOnCh sep rest = [rest] :=
      ih (fun x hx => h x (List.mem_cons_of_mem _ hx))
    simp [splitOnCh, hc, hrest]

theorem splitOnCh_append {sep : Char} {a b : Str} (h : ∀ x ∈ a, x ≠ sep) :
    splitOnCh sep (a ++ sep :: b) = a :: splitOnCh sep b := by
  induction a with
  | nil => simp [splitOnCh]
  | cons c rest ih =>
    have hc : c ≠ sep := h c (List.mem_cons_self _ _)
    have hrest := ih (fun x hx => h x (List.mem_cons_of_mem _ hx))
    simp only [List.cons_append, splitOnCh, hc, if_false]
    simp only [List.append_eq]
    rw [hrest]

theorem splitOnDot_intercalate {comps : List Str} (hne : comps ≠ [])
    (h : ∀ c ∈ comps, ∀ x ∈ c, x ≠ '.') :
    splitOnDot (intercalateDot comps) = comps := by
  induction comps with
  | nil => exact absurd rfl hne
  | cons c cs ih =>
    cases cs with
    | nil =>
      simp only [intercalateDot, splitOnDot]
      exact splitOnCh_no_sep (h c (List.mem_cons_self _ _))
    | cons c2 cs2 =>
      have hstep : intercalateDot (c :: c2 :: cs2) = c ++ '.' :: intercalateDot (c2 :: cs2) := rfl
      rw [hstep]
      unfold splitOnDot
      rw [splitOnCh_append (h c (List.mem_cons_self _ _))]
      have := ih (by simp) (fun d hd x hx => h d (List.mem_cons_of_mem _ hd) x hx)
      unfold splitOnDot at this
      rw [this]

/-! ## Lemmas: the header-number components -/

theorem parseCompsGo_digits (u : Str) :
    ∀ acc : Str, (∀ x ∈ acc, isDigitC x = true) →
    (acc ≠ [] ∨ ∃ d v, u = d :: v ∧ isDigitC d = true) →
    ∀ c ∈ (parseCompsGo u acc).1, c ≠ [] ∧ ∀ x ∈ c, isDigitC x = true := by
  induction u with
  | nil =>
    intro acc hacc hstart c hc
    rcases hstart with hne | ⟨d, v, hdv, _⟩
    · simp only [parseCompsGo, List.mem_singleton] at hc
      subst hc
      constructor
      · simpa using hne
      · intro x hx
        exact hacc x (List.mem_reverse.mp hx)
    · exact absurd hdv (by simp)
  | cons ch v ih =>
    intro acc hacc hstart c hc
    by_cases hd : isDigitC ch
    · have hstep : parseCompsGo (ch :: v) acc = parseCompsGo v (ch :: acc) := by
        conv_lhs => rw [parseCompsGo.eq_def]
        simp [hd]
      rw [hstep] at hc
      refine ih (ch :: acc) ?_ (Or.inl (by simp)) c hc
      intro x hx
      rcases List.mem_cons.mp hx with rfl | hx'
      · exact hd
      · exact hacc x hx'
    · have hne : acc ≠ [] := by
        rcases hstart with hne | ⟨d, w, hdw, hdig⟩
        · exact hne
        · cases hdw
          exact absurd hdig hd
      have hrev : acc.reverse ≠ [] ∧ ∀ x ∈ acc.reverse, isDigitC x = true := by
        constructor
        · simpa using hne
        · intro x hx; exact hacc x (List.mem_reverse.mp hx)
      by_cases hdot : ch = '.'
      · subst hdot
        cases v with
        | nil =>
          have hstep : parseCompsGo ['.'] acc = ([acc.reverse], ['.']) := by
            conv_lhs => rw [parseCompsGo.eq_def]
            simp [hd]
          rw [hstep, List.mem_singleton] at hc
          subst hc
          exact hrev
        | cons d w =>
          by_cases hdd : isDigitC d
          · rcases hp : parseCompsGo (d :: w) [] with ⟨cs, r⟩
            have hstep : parseCompsGo ('.' :: d :: w) acc = (acc.reverse :: cs, r) := by
              conv_lhs => rw [parseCompsGo.eq_def]
              simp [hd, hdd, hp]
            rw [hstep] at hc
            rcases List.mem_cons.mp hc with rfl | hc'
            · exact hrev
            · refine ih [] (by simp) (Or.inr ⟨d, w, rfl, hdd⟩) c ?_
              rw [hp]
              exact hc'
          · have hstep : parseCompsGo ('.' :: d :: w) acc = ([acc.reverse], '.' :: d :: w) := by
              conv_lhs => rw [parseCompsGo.eq_def]
              simp [hd, hdd]
            rw [hstep, List.mem_singleton] at hc
            subst hc
            exact hrev
      · have hstep : parseCompsGo (ch :: v) acc = ([acc.reverse], ch :: v) := by
          conv_lhs => rw [parseCompsGo.eq_def]
          simp [hd, hdot]
        rw [hstep, List.mem_singleton] at hc
        subst hc
        exact hrev

/-- Every header match's dotted number is made of at least two nonempty
all-digit components. -/
theorem matchHeaderAt_shape {u : Str} {n t s rest : Str}
    (h : matchHeaderAt u = some (n, t, s, rest)) :
    ∃ comps : List Str, n = intercalateDot comps ∧ 2 ≤ comps.length ∧
      ∀ c ∈ comps, c ≠ [] ∧ ∀ x ∈ c, isDigitC x = true := by
  unfold matchHeaderAt at h
  cases u with
  | nil => simp at h
  | cons c u' =>
    by_cases hc : isDigitC c
    · simp only [hc, if_true] at h
      rcases hp : parseCompsGo (c :: u') [] with ⟨comps, r1⟩
      rw [hp] at h
      simp only at h
      refine ⟨comps, ?_, ?_, ?_⟩
      · by_cases hlen : comps.length < 2
        · simp [hlen] at h
        · simp only [hlen, if_false] at h
          split_ifs at h with hws
          split at h
          · split_ifs at h with hup hnl
            split at h
            · injection h with h2
              exact (congrArg Prod.fst h2).symm
            · simp at h
          · simp at h
      · by_cases hlen : comps.length < 2
        · simp [hlen] at h
        · omega
      · have := parseCompsGo_digits (c :: u') [] (by simp) (Or.inr ⟨c, u', rfl, hc⟩)
        rw [hp] at this
        exact this
    · simp [hc] at h

/-! ## Lemmas: header-match provenance -/

theorem mem_scanHeaders {text : Str} {m : Str × Str × Str × Str}
    (h : m ∈ scanHeaders text) :
    ∃ u n t s a, matchHeaderAt u = some (n, t, s, a) ∧ m = (n, t, s, a.take 3500) := by
  induction text with
  | nil => simp [scanHeaders] at h
  | cons c rest ih =>
    simp only [scanHeaders] at h
    split_ifs at h with hc
    · cases hm : matchHeaderAt rest with
      | none => rw [hm] at h; exact ih h
      | some val =>
        rcases val with ⟨n, t, s, a⟩
        rw [hm] at h
        rcases List.mem_cons.mp h with rfl | h'
        · exact ⟨rest, n, t, s, a, hm, rfl⟩
        · exact ih h'
    · exact ih h

theorem mem_findHeaders {text : Str} {m : Str × Str × Str × Str}
    (h : m ∈ findHeaders text) :
    ∃ u n t s a, matchHeaderAt u = some (n, t, s, a) ∧ m = (n, t, s, a.take 3500) := by
  unfold findHeaders at h
  cases hm : matchHeaderAt text with
  | none => rw [hm] at h; exact mem_scanHeaders h
  | some val =>
    rcases val with ⟨n, t, s, a⟩
    rw [hm] at h
    rcases List.mem_cons.mp h with rfl | h'
    · exact ⟨text, n, t, s, a, hm, rfl⟩
    · exact mem_scanHeaders h'

/-! ## Lemmas: segmented records -/

theorem extractDetails_num (num title status content : Str) :
    (extractDetails num title status content).num = num := rfl

theorem extractDetails_bounds (num title status content : Str) :
    (extractDetails num title status content).description.length ≤ 1500 ∧
    (extractDetails num title status content).rationale.length ≤ 1000 ∧
    (extractDetails num title status content).impact.length ≤ 1000 ∧
    (extractDetails num title status content).audit.length ≤ 2500 ∧
    (extractDetails num title status content).remediation.length ≤ 1500 ∧
    (extractDetails num title status content).default_value.length ≤ 500 ∧
    (extractDetails num title status content).references.length ≤ 800 :=
  ⟨List.length_take_le _ _, List.length_take_le _ _, List.length_take_le _ _,
   List.length_take_le _ _, List.length_take_le _ _, List.length_take_le _ _,
   List.length_take_le _ _⟩

/-- Every record of the raw match list comes from a header match and was
accepted by the nonempty-audit filter. -/
theorem mem_extractRaw {pages : List Str} {r : Rec} (h : r ∈ extractRaw pages) :
    r.audit ≠ [] ∧
      ∃ n t s c, r = extractDetails n (strip t) s c ∧
        ∃ u a, matchHeaderAt u = some (n, t, s, a) ∧ c = a.take 3500 := by
  unfold extractRaw at h
  rcases List.mem_flatMap.mp h with ⟨text, _htext, hmem⟩
  rcases List.mem_filterMap.mp hmem with ⟨m, hm, heq⟩
  rcases m with ⟨n, t, s, c⟩
  simp only at heq
  split_ifs at heq with haud
  · rcases Option.some.inj heq with rfl
    refine ⟨haud, n, t, s, c, rfl, ?_⟩
    rcases mem_findHeaders hm with ⟨u, n', t', s', a, hu, hcomp⟩
    rcases Prod.mk.injEq _ _ _ _ ▸ hcomp with ⟨rfl, h2⟩
    rcases Prod.mk.injEq _ _ _ _ ▸ h2 with ⟨rfl, h3⟩
    rcases Prod.mk.injEq _ _ _ _ ▸ h3 with ⟨rfl, h4⟩
    exact ⟨u, a, hu, h4⟩

/-- The dotted number of every raw record splits into nonempty all-digit
components (at least two of them). -/
theorem extractRaw_num_wf {pages : List Str} {r : Rec} (h : r ∈ extractRaw pages) :
    2 ≤ (splitOnDot r.num).length ∧
      ∀ comp ∈ splitOnDot r.num, comp ≠ [] ∧ ∀ x ∈ comp, isDigitC x = true := by
  rcases mem_extractRaw h with ⟨_, n, t, s, c, hr, u, a, hu, _⟩
  have hnum : r.num = n := by rw [hr]; rfl
  rcases matchHeaderAt_shape hu with ⟨comps, hn, hlen, hcomps⟩
  have hnodot : ∀ cc ∈ comps, ∀ x ∈ cc, x ≠ '.' := by
    intro cc hcc x hx
    exact isDigitC_ne_dot ((hcomps cc hcc).2 x hx)
  have hsplit : splitOnDot r.num = comps := by
    rw [hnum, hn]
    exact splitOnDot_intercalate (by intro hnil; subst hnil; simp at hlen) hnodot
  rw [hsplit]
  exact ⟨by omega, hcomps⟩

theorem seqComps_isSome {comps : List Str}
    (h : ∀ c ∈ comps, c ≠ [] ∧ ∀ x ∈ c, isDigitC x = true) :
    (seqComps comps).isSome := by
  induction comps with
  | nil => simp [seqComps]
  | cons c cs ih =>
    rcases h c (List.mem_cons_self _ _) with ⟨hne, hdig⟩
    have hps : parseIntStrict c = some (digitsToNat c) := by
      unfold parseIntStrict
      rw [if_pos ⟨hne, List.all_eq_true.mpr hdig⟩]
    have := ih (fun d hd => h d (List.mem_cons_of_mem _ hd))
    rcases Option.isSome_iff_exists.mp this with ⟨ns, hns⟩
    simp [seqComps, hps, hns]

theorem extractRaw_key_isSome {pages : List Str} {r : Rec} (h : r ∈ extractRaw pages) :
    (numKeyO r).isSome := seqComps_isSome (extractRaw_num_wf h).2

/-- The sort's key computation never fails on extractor output: extraction
always returns a list. -/
theorem extractRecommendations_eq (pages : List Str) :
    extractRecommendations pages =
      some (isortRecs (removeDuplicates (extractRaw pages))) := by
  unfold extractRecommendations
  rw [if_pos]
  exact List.all_eq_true.mpr
    (fun r hr => extractRaw_key_isSome (removeDuplicates_subset hr))

/-- Membership in the final list implies membership in the raw list. -/
theorem mem_final {pages : List Str} {l : List Rec} {r : Rec}
    (h : extractRecommendations pages = some l) (hr : r ∈ l) :
    r ∈ extractRaw pages := by
  rw [extractRecommendations_eq] at h
  rcases Option.some.inj h with rfl
  exact removeDuplicates_subset (mem_isortRecs.mp hr)

/-! ## Lemmas: association lists and section grouping -/

theorem alookup_mem {α : Type} {S : List (Str × α)} {k : Str} {g : α}
    (h : alookup S k = some g) : (k, g) ∈ S := by
  induction S with
  | nil => simp [alookup] at h
  | cons p t ih =>
    rcases p with ⟨k', v⟩
    simp only [alookup] at h
    split_ifs at h with hk
    · subst hk
      rcases Option.some.inj h with rfl
      exact List.mem_cons_self _ _
    · exact List.mem_cons_of_mem _ (ih h)

theorem alookup_eq_of_mem {α : Type} {S : List (Str × α)} {kg : Str × α}
    (hd : (S.map Prod.fst).Pairwise (fun a b => a ≠ b)) (h : kg ∈ S) :
    alookup S kg.1 = some kg.2 := by
  induction S with
  | nil => simp at h
  | cons p t ih =>
    rcases p with ⟨k', v⟩
    rw [List.map_cons] at hd
    rcases List.pairwise_cons.mp hd with ⟨hk', hd'⟩
    rcases List.mem_cons.mp h with rfl | h'
    · simp [alookup]
    · have hne : k' ≠ kg.1 := hk' kg.1 (List.mem_map.mpr ⟨kg, h', rfl⟩)
      simp only [alookup]
      rw [if_neg hne]
      exact ih hd' h'

theorem alookup_cons_self {α : Type} (k : Str) (v : α) (t : List (Str × α)) :
    alookup ((k, v) :: t) k = some v := by
  simp [alookup]

theorem alookup_cons_other {α : Type} {k' k : Str} (hne : k' ≠ k) (v : α)
    (t : List (Str × α)) : alookup ((k', v) :: t) k = alookup t k := by
  simp [alookup, hne]

theorem addToSection_keys (acc : List (Str × List Rec)) (k : Str) (r : Rec) :
    (addToSection acc k r).map Prod.fst =
      if k ∈ acc.map Prod.fst then acc.map Prod.fst else acc.map Prod.fst ++ [k] := by
  induction acc with
  | nil => simp [addToSection]
  | cons p t ih =>
    rcases p with ⟨k', g⟩
    by_cases hk : k' = k
    · subst hk
      have hmem : k' ∈ ((k', g) :: t).map Prod.fst := by simp
      rw [if_pos hmem]
      simp [addToSection]
    · have h1 : addToSection ((k', g) :: t) k r = (k', g) :: addToSection t k r := by
        simp [addToSection, hk]
      rw [h1]
      by_cases hmem : k ∈ t.map Prod.fst
      · have hm2 : k ∈ ((k', g) :: t).map Prod.fst := by simp [hmem]
        rw [if_pos hm2]
        simp [ih, hmem]
      · have hkk : k ≠ k' := fun hh => hk hh.symm
        have hm2 : k ∉ ((k', g) :: t).map Prod.fst := by simp [hkk, hmem]
        rw [if_neg hm2]
        simp [ih, hmem]

theorem alookup_addToSection_self (acc : List (Str × List Rec)) (k : Str) (r : Rec) :
    alookup (addToSection acc k r) k = some ((alookup acc k).getD [] ++ [r]) := by
  induction acc with
  | nil => simp [addToSection, alookup]
  | cons p t ih =>
    rcases p with ⟨k', g⟩
    by_cases hk : k' = k
    · subst hk
      have h1 : addToSection ((k', g) :: t) k' r = (k', g ++ [r]) :: t := by
        simp [addToSection]
      rw [h1, alookup_cons_self, alookup_cons_self]
      rfl
    · have h1 : addToSection ((k', g) :: t) k r = (k', g) :: addToSection t k r := by
        simp [addToSection, hk]
      rw [h1, alookup_cons_other hk, alookup_cons_other hk]
      exact ih

theorem alookup_addToSection_other (acc : List (Str × List Rec)) (k0 k : Str) (r : Rec)
    (hne : k ≠ k0) : alookup (addToSection acc k0 r) k = alookup acc k := by
  induction acc with
  | nil =>
    have : k0 ≠ k := fun hh => hne hh.symm
    simp [addToSection, alookup, this]
  | cons p t ih =>
    rcases p with ⟨k', g⟩
    by_cases hk : k' = k0
    · subst hk
      have h1 : addToSection ((k', g) :: t) k' r = (k', g ++ [r]) :: t := by
        simp [addToSection]
      have hne2 : k' ≠ k := fun hh => hne (hh.symm)
      rw [h1, alookup_cons_other hne2, alookup_cons_other hne2]
    · have h1 : addToSection ((k', g) :: t) k0 r = (k', g) :: addToSection t k0 r := by
        simp [addToSection, hk]
      rw [h1]
      by_cases hk2 : k' = k
      · subst hk2
        rw [alookup_cons_self, alookup_cons_self]
      · rw [alookup_cons_other hk2, alookup_cons_other hk2]
        exact ih

/-- The one-step function of `organize_by_section`'s loop. -/
def orgStep (secs : List (Str × List Rec)) (r : Rec) : List (Str × List Rec) :=
  addToSection secs (leadComp r.num) r

theorem organizeBySection_eq_foldl (recs : List Rec) :
    organizeBySection recs = recs.foldl orgStep [] := rfl

theorem org_foldl_lookup (recs : List Rec) :
    ∀ (acc : List (Str × List Rec)) (k : Str),
      (alookup (recs.foldl orgStep acc) k).getD [] =
        (alookup acc k).getD [] ++ recs.filter (fun r => decide (leadComp r.num = k)) := by
  induction recs with
  | nil => simp
  | cons r rs ih =>
    intro acc k
    simp only [List.foldl_cons]
    rw [ih]
    by_cases hk : leadComp r.num = k
    · subst hk
      rw [orgStep, alookup_addToSection_self]
      simp [List.filter_cons]
    · rw [orgStep, alookup_addToSection_other _ _ _ _ (fun hh => hk hh.symm)]
      simp [List.filter_cons, hk]

theorem org_foldl_keys_pairwise (recs : List Rec) :
    ∀ acc : List (Str × List Rec),
      (acc.map Prod.fst).Pairwise (fun a b => a ≠ b) →
      (((recs.foldl orgStep acc).map Prod.fst)).Pairwise (fun a b => a ≠ b) := by
  induction recs with
  | nil => intro acc h; simpa using h
  | cons r rs ih =>
    intro acc h
    simp only [List.foldl_cons]
    refine ih _ ?_
    rw [orgStep, addToSection_keys]
    split_ifs with hmem
    · exact h
    · rw [List.pairwise_append]
      refine ⟨h, by simp, ?_⟩
      intro a ha b hb
      rcases List.mem_singleton.mp hb with rfl
      exact fun hh => hmem (hh ▸ ha)

theorem org_foldl_keys_sub (recs : List Rec) :
    ∀ (acc : List (Str × List Rec)) (k : Str),
      k ∈ (recs.foldl orgStep acc).map Prod.fst →
      k ∈ acc.map Prod.fst ∨ ∃ r ∈ recs, leadComp r.num = k := by
  induction recs with
  | nil => intro acc k h; exact Or.inl h
  | cons r rs ih =>
    intro acc k h
    simp only [List.foldl_cons] at h
    rcases ih _ k h with h' | ⟨r', hr', hk⟩
    · rw [orgStep, addToSection_keys] at h'
      split_ifs at h' with hmem
      · exact Or.inl h'
      · rcases List.mem_append.mp h' with h'' | h''
        · exact Or.inl h''
        · rcases List.mem_singleton.mp h'' with rfl
          exact Or.inr ⟨r, List.mem_cons_self _ _, rfl⟩
    · exact Or.inr ⟨r', List.mem_cons_of_mem _ hr', hk⟩

theorem org_lookup (l : List Rec) (k : Str) :
    (alookup (organizeBySection l) k).getD [] =
      l.filter (fun r => decide (leadComp r.num = k)) := by
  rw [organizeBySection_eq_foldl, org_foldl_lookup]
  simp [alookup]

theorem org_keys_pairwise (l : List Rec) :
    ((organizeBySection l).map Prod.fst).Pairwise (fun a b => a ≠ b) := by
  rw [organizeBySection_eq_foldl]
  exact org_foldl_keys_pairwise l [] (by simp)

theorem org_keys_sub {l : List Rec} {k : Str}
    (h : k ∈ (organizeBySection l).map Prod.fst) :
    ∃ r ∈ l, leadComp r.num = k := by
  rw [organizeBySection_eq_foldl] at h
  rcases org_foldl_keys_sub l [] k h with h' | h'
  · simp at h'
  · exact h'

/-- Every group of the organized list is exactly the filter of the input by
its key. -/
theorem org_group_eq_filter {l : List Rec} {kg : Str × List Rec}
    (h : kg ∈ organizeBySection l) :
    kg.2 = l.filter (fun r => decide (leadComp r.num = kg.1)) := by
  have hlk := alookup_eq_of_mem (org_keys_pairwise l) h
  have := org_lookup l kg.1
  rw [hlk] at this
  simpa using this

/-! ## Lemmas: whitespace runs and the start-page pattern -/

theorem andE {a b : Bool} : (a && b) = true ↔ a = true ∧ b = true := by simp

theorem orE {a b : Bool} : (a || b) = true ↔ a = true ∨ b = true := by simp

theorem isSpaceC_not_digit {x : Char} (h : isSpaceC x = true) : isDigitC x = false := by
  simp only [isSpaceC, Bool.or_eq_true, beq_iff_eq] at h
  rcases h with ((((h1 | h1) | h1) | h1) | h1) | h1 <;> subst h1 <;> decide

theorem takeWhile_append_all {p : Char → Bool} {a : Str} (h : ∀ x ∈ a, p x = true)
    (b : Str) : (a ++ b).takeWhile p = a ++ b.takeWhile p := by
  induction a with
  | nil => simp
  | cons c cs ih =>
    have hc : p c = true := h c (List.mem_cons_self _ _)
    simp only [List.cons_append, List.takeWhile_cons, hc, if_true]
    rw [ih (fun x hx => h x (List.mem_cons_of_mem _ hx))]

theorem drop_takeWhile_length (p : Char → Bool) (v : Str) :
    v.drop (v.takeWhile p).length = v.dropWhile p := by
  calc v.drop (v.takeWhile p).length
      = (v.takeWhile p ++ v.dropWhile p).drop (v.takeWhile p).length := by
        rw [List.takeWhile_append_dropWhile]
    _ = v.dropWhile p := List.drop_left _ _

theorem startsWith_iff {p s : Str} : startsWith p s = true ↔ ∃ rest, s = p ++ rest := by
  induction p generalizing s with
  | nil => simp [startsWith]
  | cons x xs ih =>
    cases s with
    | nil =>
      simp only [startsWith]
      constructor
      · intro h; simp at h
      · rintro ⟨rest, h⟩; simp at h
    | cons c cs =>
      simp only [startsWith, Bool.and_eq_true, beq_iff_eq]
      constructor
      · rintro ⟨rfl, h2⟩
        rcases ih.mp h2 with ⟨rest, rfl⟩
        exact ⟨rest, rfl⟩
      · rintro ⟨rest, heq⟩
        injection heq with h1 h2
        exact ⟨h1.symm, ih.mpr ⟨rest, h2⟩⟩

theorem afterWsUpper_iff {v : Str} :
    afterWsUpper v = true ↔
      ∃ ws c rest, v = ws ++ c :: rest ∧ ws ≠ [] ∧
        (∀ x ∈ ws, isSpaceC x = true) ∧ isUpperC c = true := by
  constructor
  · intro h
    unfold afterWsUpper at h
    rw [drop_takeWhile_length] at h
    cases hd : v.dropWhile isSpaceC with
    | nil => rw [hd] at h; simp at h
    | cons c rest =>
      rw [hd] at h
      rcases andE.mp h with ⟨hne, hup⟩
      refine ⟨v.takeWhile isSpaceC, c, rest, ?_, ?_, ?_, hup⟩
      · rw [← hd, List.takeWhile_append_dropWhile]
      · intro hnil
        rw [hnil] at hne
        simp at hne
      · intro x hx
        exact List.mem_takeWhile_imp hx
  · rintro ⟨ws, c, rest, rfl, hne, hsp, hup⟩
    have htw : (ws ++ c :: rest).takeWhile isSpaceC = ws := by
      rw [takeWhile_append_all hsp]
      have : isSpaceC c = false := isUpperC_not_space hup
      simp [List.takeWhile_cons, this]
    unfold afterWsUpper
    rw [htw, List.drop_left]
    cases ws with
    | nil => exact absurd rfl hne
    | cons w ws' => simp [hup]

theorem dotDigitsCase_iff {v : Str} :
    dotDigitsCase v = true ↔
      ∃ ds ws c rest, v = '.' :: ds ++ ws ++ c :: rest ∧ ds ≠ [] ∧
        (∀ d ∈ ds, isDigitC d = true) ∧ ws ≠ [] ∧
        (∀ x ∈ ws, isSpaceC x = true) ∧ isUpperC c = true := by
  constructor
  · intro h
    cases v with
    | nil => simp [dotDigitsCase] at h
    | cons c0 w =>
      simp only [dotDigitsCase] at h
      split_ifs at h with hdot
      subst hdot
      rcases andE.mp h with ⟨hne, haw⟩
      rw [drop_takeWhile_length] at haw
      rcases afterWsUpper_iff.mp haw with ⟨ws, c, rest, hdw, hwsne, hsp, hup⟩
      refine ⟨w.takeWhile isDigitC, ws, c, rest, ?_, ?_, ?_, hwsne, hsp, hup⟩
      · simp only [List.cons_append, List.append_assoc]
        rw [← hdw, List.takeWhile_append_dropWhile]
      · intro hnil
        rw [hnil] at hne
        simp at hne
      · intro d hd
        exact List.mem_takeWhile_imp hd
  · rintro ⟨ds, ws, c, rest, rfl, hdne, hdig, hwsne, hsp, hup⟩
    have hv : ('.' :: ds ++ ws ++ c :: rest : Str) = '.' :: (ds ++ (ws ++ c :: rest)) := by
      simp
    rw [hv]
    have hcd : dotDigitsCase ('.' :: (ds ++ (ws ++ c :: rest))) =
        (!((ds ++ (ws ++ c :: rest) : Str).takeWhile isDigitC).isEmpty &&
          afterWsUpper ((ds ++ (ws ++ c :: rest)).drop
            ((ds ++ (ws ++ c :: rest) : Str).takeWhile isDigitC).length)) := by
      simp [dotDigitsCase]
    rw [hcd]
    have htw : ((ds ++ (ws ++ c :: rest)) : Str).takeWhile isDigitC = ds := by
      rw [takeWhile_append_all hdig]
      cases ws with
      | nil => exact absurd rfl hwsne
      | cons w0 ws' =>
        have h0 : isDigitC w0 = false := isSpaceC_not_digit (hsp w0 (List.mem_cons_self _ _))
        simp [List.takeWhile_cons, h0]
    rw [htw, List.drop_left]
    refine andE.mpr ⟨?_, afterWsUpper_iff.mpr ⟨ws, c, rest, rfl, hwsne, hsp, hup⟩⟩
    cases ds with
    | nil => exact absurd rfl hdne
    | cons d ds' => simp

theorem drop_three (v : Str) : ("1.1".data ++ v).drop 3 = v := rfl

theorem checkStartPat_iff {u : Str} : checkStartPat u = true ↔ SpecStartTail u := by
  unfold checkStartPat SpecStartTail
  constructor
  · intro h
    rcases andE.mp h with ⟨h1, h2⟩
    rcases startsWith_iff.mp h1 with ⟨v, rfl⟩
    rw [drop_three] at h2
    rcases orE.mp h2 with h3 | h3
    · rcases dotDigitsCase_iff.mp h3 with ⟨ds, ws, c, rest, rfl, hdne, hdig, hwsne, hsp, hup⟩
      exact ⟨'.' :: ds, ws, c, rest, by simp, Or.inr ⟨ds, hdne, hdig, rfl⟩, hwsne, hsp, hup⟩
    · rcases afterWsUpper_iff.mp h3 with ⟨ws, c, rest, rfl, hwsne, hsp, hup⟩
      exact ⟨[], ws, c, rest, by simp, Or.inl rfl, hwsne, hsp, hup⟩
  · rintro ⟨opt, ws, c, rest, rfl, hopt, hwsne, hsp, hup⟩
    have hu : ("1.1".data ++ opt ++ ws ++ c :: rest : Str) =
        "1.1".data ++ (opt ++ (ws ++ c :: rest)) := by simp
    rw [hu]
    refine andE.mpr ⟨startsWith_iff.mpr ⟨_, rfl⟩, ?_⟩
    rw [drop_three]
    rcases hopt with rfl | ⟨ds, hdne, hdig, rfl⟩
    · refine orE.mpr (Or.inr ?_)
      rw [List.nil_append]
      exact afterWsUpper_iff.mpr ⟨ws, c, rest, rfl, hwsne, hsp, hup⟩
    · refine orE.mpr (Or.inl ?_)
      refine dotDigitsCase_iff.mpr ⟨ds, ws, c, rest, by simp, hdne, hdig, hwsne, hsp, hup⟩

theorem pageHasStart_iff {t : Str} :
    pageHasStart t = true ↔
      ∃ pre rest, t = pre ++ '\n' :: rest ∧ checkStartPat rest = true := by
  induction t with
  | nil =>
    simp only [pageHasStart]
    constructor
    · intro h; simp at h
    · rintro ⟨pre, rest, heq, -⟩
      cases pre <;> simp at heq
  | cons c cs ih =>
    simp only [pageHasStart]
    split_ifs with hc
    · subst hc
      constructor
      · intro h
        rcases orE.mp h with h1 | h1
        · exact ⟨[], cs, rfl, h1⟩
        · rcases ih.mp h1 with ⟨pre, rest, rfl, hcp⟩
          exact ⟨'\n' :: pre, rest, rfl, hcp⟩
      · rintro ⟨pre, rest, heq, hcp⟩
        cases pre with
        | nil =>
          injection heq with h1 h2
          subst h2
          exact orE.mpr (Or.inl hcp)
        | cons p ps =>
          injection heq with h1 h2
          exact orE.mpr (Or.inr (ih.mpr ⟨ps, rest, h2, hcp⟩))
    · constructor
      · intro h
        rcases ih.mp h with ⟨pre, rest, rfl, hcp⟩
        exact ⟨c :: pre, rest, rfl, hcp⟩
      · rintro ⟨pre, rest, heq, hcp⟩
        cases pre with
        | nil =>
          injection heq with h1 h2
          exact absurd h1 hc
        | cons p ps =>
          injection heq with h1 h2
          exact ih.mpr ⟨ps, rest, h2, hcp⟩

/-- The code's page scan is exactly the spec-side predicate. -/
theorem pageHasStart_iff_spec {t : Str} : pageHasStart t = true ↔ SpecStartPage t := by
  rw [pageHasStart_iff]
  unfold SpecStartPage
  constructor
  · rintro ⟨pre, rest, rfl, h⟩
    exact ⟨pre, rest, rfl, checkStartPat_iff.mp h⟩
  · rintro ⟨pre, rest, rfl, h⟩
    exact ⟨pre, rest, rfl, checkStartPat_iff.mpr h⟩

/-! ## Lemmas: the start-page loop -/

theorem findStartGo_first (l : List Str) :
    ∀ (k i : Nat) (hi : i < l.length),
      pageHasStart (l.get ⟨i, hi⟩) = true →
      (∀ j (hj : j < l.length), j < i → pageHasStart (l.get ⟨j, hj⟩) = false) →
      findStartGo l k = k + i := by
  induction l with
  | nil => intro k i hi; simp at hi
  | cons p t ih =>
    intro k i hi hp hmin
    cases i with
    | zero =>
      simp only [List.get] at hp
      simp [findStartGo, hp]
    | succ i' =>
      have h0 : pageHasStart p = false := hmin 0 (by simp) (Nat.succ_pos _)
      simp only [findStartGo, h0, Bool.false_eq_true, if_false]
      have hi' : i' < t.length := by simpa using hi
      have hp' : pageHasStart (t.get ⟨i', hi'⟩) = true := by
        simpa using hp
      have hmin' : ∀ j (hj : j < t.length), j < i' →
          pageHasStart (t.get ⟨j, hj⟩) = false := by
        intro j hj hji
        have := hmin (j + 1) (by simpa using Nat.succ_lt_succ hj) (Nat.succ_lt_succ hji)
        simpa using this
      rw [ih (k + 1) i' hi' hp' hmin']
      omega

theorem findStartGo_none (l : List Str) :
    ∀ k, (∀ j (hj : j < l.length), pageHasStart (l.get ⟨j, hj⟩) = false) →
      findStartGo l k = 15 := by
  induction l with
  | nil => intro k _; rfl
  | cons p t ih =>
    intro k hall
    have h0 : pageHasStart p = false := hall 0 (by simp)
    simp only [findStartGo, h0, Bool.false_eq_true, if_false]
    refine ih (k + 1) ?_
    intro j hj
    have := hall (j + 1) (by simpa using Nat.succ_lt_succ hj)
    simpa using this

/-! ## Lemmas: metadata and pipeline totality -/

theorem foldl_metaStep_none (l : List Str)
    (h : ∀ p ∈ l, searchTitle p = none ∧ searchVersion p = none) :
    ∀ acc : Str × Str, l.foldl metaStep acc = acc := by
  induction l with
  | nil => intro acc; rfl
  | cons p t ih =>
    intro acc
    simp only [List.foldl_cons]
    have hp := h p (List.mem_cons_self _ _)
    have hstep : metaStep acc p = acc := by
      unfold metaStep
      rw [hp.1, hp.2]
    rw [hstep]
    exact ih (fun q hq => h q (List.mem_cons_of_mem _ hq)) acc

theorem extractMetadata_none {pages : List Str}
    (h : ∀ p ∈ pages.take 5, searchTitle p = none ∧ searchVersion p = none) :
    extractMetadata pages = ([], []) :=
  foldl_metaStep_none (pages.take 5) h ([], [])

theorem seqKeys_isSome {sections : List (Str × List Rec)}
    (h : ∀ kg ∈ sections, (parseIntStrict kg.1).isSome) :
    (seqKeys sections).isSome := by
  induction sections with
  | nil => simp [seqKeys]
  | cons kg t ih =>
    rcases kg with ⟨k, g⟩
    rcases Option.isSome_iff_exists.mp (h (k, g) (List.mem_cons_self _ _)) with ⟨n, hn⟩
    rcases Option.isSome_iff_exists.mp
      (ih (fun x hx => h x (List.mem_cons_of_mem _ hx))) with ⟨ns, hns⟩
    simp [seqKeys, hn, hns]

theorem leadComp_parse {pages : List Str} {r : Rec} (h : r ∈ extractRaw pages) :
    (parseIntStrict (leadComp r.num)).isSome := by
  rcases extractRaw_num_wf h with ⟨hlen, hcomps⟩
  cases hs : splitOnDot r.num with
  | nil => rw [hs] at hlen; simp at hlen
  | cons c cs =>
    have hc := hcomps c (by rw [hs]; exact List.mem_cons_self _ _)
    unfold leadComp
    rw [hs]
    simp only [List.headD_cons]
    unfold parseIntStrict
    rw [if_pos ⟨hc.1, List.all_eq_true.mpr hc.2⟩]
    simp

theorem sortedSectionKeys_isSome (pages : List Str) :
    (sortedSectionKeys (organizeBySection
      (isortRecs (removeDuplicates (extractRaw pages))))).isSome := by
  unfold sortedSectionKeys
  have hs : (seqKeys (organizeBySection
      (isortRecs (removeDuplicates (extractRaw pages))))).isSome := by
    apply seqKeys_isSome
    intro kg hkg
    rcases org_keys_sub (List.mem_map.mpr ⟨kg, hkg, rfl⟩) with ⟨r, hr, hlk⟩
    have hraw : r ∈ extractRaw pages := removeDuplicates_subset (mem_isortRecs.mp hr)
    rw [← hlk]
    exact leadComp_parse hraw
  rcases Option.isSome_iff_exists.mp hs with ⟨ks, hks⟩
  simp [hks]

theorem runPipeline_isSome (pages : List Str) : (runPipeline pages).isSome := by
  unfold runPipeline
  rw [extractRecommendations_eq]
  rcases Option.isSome_iff_exists.mp (sortedSectionKeys_isSome pages) with ⟨ks, hks⟩
  simp [hks]

theorem runPipeline_empty {pages : List Str} (h : extractRaw pages = []) :
    runPipeline pages = some (extractMetadata pages, ["📑 INDEX".data]) := by
  unfold runPipeline
  rw [extractRecommendations_eq, h]
  rfl

/-! ## Concrete inputs for the scenario claims -/

/-- The spec's end-to-end example page: the `1.1` header followed by the
Description, Rationale, Audit and Remediation lines (preceded by a
front-matter line so the header regex's newline anchor applies). -/
def c1page : Str :=
  ("Recommendations\n1.1 Disable unused filesystems (Automated)\nDescription: Do not mount cramfs.\nRationale: Reduces attack surface.\nAudit: Run modprobe -n -v cramfs.\nRemediation: Edit /etc/modprobe.d/cramfs.conf.").data

/-- The record the code actually produces for `c1page`.  All fields agree
with the spec's example except `remediation`, which is empty: the
remediation regex needs a following `Default Value:`/`Impact:`/`References:`
label to terminate its lazy group, and the page ends without one. -/
def c1rec : Rec :=
  { num := "1.1".data, title := "Disable unused filesystems".data,
    profile := "Level 1".data, status := "Automated".data,
    description := "Do not mount cramfs.".data,
    rationale := "Reduces attack surface.".data,
    impact := [], audit := "Run modprobe -n -v cramfs.".data,
    remediation := [], default_value := [], references := [] }

/-- A page with two headers whose numbers differ as strings (`1.01` and
`1.1`) but have the same integer tuple `[1, 1]`. -/
def c3page : Str :=
  ("X\n1.01 Apple pie (Manual)\nAudit: a\nRemediation: b\n1.1 Banana split (Manual)\nAudit: c\nRemediation: d\n").data

/-- First record extracted from `c3page`. -/
def c3rec1 : Rec :=
  { num := "1.01".data, title := "Apple pie".data, profile := "Level 1".data,
    status := "Manual".data, description := [], rationale := [], impact := [],
    audit := "a".data, remediation := [], default_value := [], references := [] }

/-- Second record extracted from `c3page`. -/
def c3rec2 : Rec :=
  { num := "1.1".data, title := "Banana split".data, profile := "Level 1".data,
    status := "Manual".data, description := [], rationale := [], impact := [],
    audit := "c".data, remediation := [], default_value := [], references := [] }

/-- A page whose two headers appear in descending numeric order, so the
sort actually reorders them. -/
def c3wpage : Str :=
  ("X\n1.2 Apple pie (Manual)\nAudit: a\nRemediation: b\n1.1 Banana split (Manual)\nAudit: c\nRemediation: d\n").data

/-- First record of the sorted output for `c3wpage`. -/
def c3wrec1 : Rec :=
  { num := "1.1".data, title := "Banana split".data, profile := "Level 1".data,
    status := "Manual".data, description := [], rationale := [], impact := [],
    audit := "c".data, remediation := [], default_value := [], references := [] }

/-- Second record of the sorted output for `c3wpage`. -/
def c3wrec2 : Rec :=
  { num := "1.2".data, title := "Apple pie".data, profile := "Level 1".data,
    status := "Manual".data, description := [], rationale := [], impact := [],
    audit := "a".data, remediation := [], default_value := [], references := [] }

/-- A one-line page whose only (first) line starts with the `1.1` pattern:
there is no newline before it, so the code's `\n`-anchored scan misses it. -/
def c7page : Str := "1.1 Apple".data

/-! ## The claims -/

/-- Claim C1 (corrected): on the spec's example page the Extractor produces
exactly one record with the claimed `num`, `title`, `status`,
`description`, `rationale`, `audit`, `default_value` and `references`, and
it is grouped under section "1" — but its `remediation` is the empty
string, not "Edit /etc/modprobe.d/cramfs.conf.", because the remediation
regex requires a following section label and the content window ends
without one. -/
theorem claim1_scenario :
    extractRecommendations [c1page] = some [c1rec] ∧
    organizeBySection [c1rec] = [("1".data, [c1rec])] ∧
    c1rec.remediation = [] := by
  refine ⟨by decide, by decide, rfl⟩

/-- Claim C1, counterexample to the claim as stated: the example input
contains the required lines, yet the extracted record's remediation is not
"Edit /etc/modprobe.d/cramfs.conf.". -/
theorem claim1_counterexample :
    extractRecommendations [c1page] = some [c1rec] ∧
    c1rec.remediation ≠ "Edit /etc/modprobe.d/cramfs.conf.".data := by
  refine ⟨by decide, by decide⟩

/-- Claim C2 (confirmed): every record in the Extractor's final list has a
nonempty audit field; a match whose segmented audit text is empty is never
present. -/
theorem claim2_audit_filter (pages : List Str) (l : List Rec) (r : Rec)
    (h : extractRecommendations pages = some l) (hr : r ∈ l) :
    r.audit ≠ [] :=
  (mem_extractRaw (mem_final h hr)).1

/-- Claim C2, witness at the concrete example page. -/
theorem claim2_witness : c1rec.audit ≠ [] :=
  claim2_audit_filter [c1page] [c1rec] c1rec (by decide) (by decide)

/-- Claim C3 (amended): the final list has pairwise-distinct `num`s (first
occurrence kept by deduplication) and is sorted ascending by integer
tuple: no later record's tuple is below an earlier one's, and when all
tuples are pairwise distinct, record `i` precedes record `j` exactly when
its tuple is lexicographically smaller.  (The unconditional "iff" of the
original claim fails when two distinct `num`s, e.g. `1.01` and `1.1`,
yield equal tuples.) -/
theorem claim3_sorted (pages : List Str) (l : List Rec)
    (h : extractRecommendations pages = some l) :
    l.Pairwise (fun a b => a.num ≠ b.num) ∧
    l.Pairwise (fun a b => keyLt (numKeyD b) (numKeyD a) = false) ∧
    (l.Pairwise (fun a b => numKeyD a ≠ numKeyD b) →
      ∀ i j : Fin l.length,
        (i < j ↔ keyLt (numKeyD (l.get i)) (numKeyD (l.get j)) = true)) := by
  have hl : l = isortRecs (removeDuplicates (extractRaw pages)) := by
    rw [extractRecommendations_eq] at h
    exact (Option.some.inj h).symm
  subst hl
  refine ⟨?_, pairwise_isortRecs _, ?_⟩
  · have hperm := perm_isortRecs (removeDuplicates (extractRaw pages))
    have hsym : ∀ {x y : Rec}, x.num ≠ y.num → y.num ≠ x.num := fun hxy => hxy.symm
    exact (List.Perm.pairwise_iff hsym hperm).mpr (removeDuplicates_pairwise _)
  · intro hdist i j
    have hsorted := pairwise_isortRecs (removeDuplicates (extractRaw pages))
    rw [List.pairwise_iff_get] at hsorted hdist
    constructor
    · intro hij
      have h1 := hsorted i j hij
      have h2 := hdist i j hij
      rcases keyLt_connex h2 with hk | hk
      · exact hk
      · rw [recSortedRel] at h1
        rw [hk] at h1
        simp at h1
    · intro hk
      rcases lt_trichotomy i j with hlt | heq | hgt
      · exact hlt
      · rw [heq, keyLt_irrefl] at hk
        simp at hk
      · have h1 := hsorted j i hgt
        rw [recSortedRel] at h1
        rw [hk] at h1
        simp at h1

/-- Claim C3, counterexample to the unconditional "iff": on `c3page` the
final list is `[c3rec1, c3rec2]` — `c3rec1` (num `1.01`) precedes `c3rec2`
(num `1.1`) — yet their integer tuples are equal, so the first tuple is
not lexicographically less than the second. -/
theorem claim3_counterexample :
    extractRecommendations [c3page] = some [c3rec1, c3rec2] ∧
    c3rec1.num ≠ c3rec2.num ∧
    numKeyD c3rec1 = numKeyD c3rec2 ∧
    keyLt (numKeyD c3rec1) (numKeyD c3rec2) = false := by
  refine ⟨by decide, by decide, by decide, by decide⟩

/-- Claim C3, witness: on `c3wpage` the sort reorders the two records and
the strict-order characterisation holds. -/
theorem claim3_witness :
    List.Pairwise (fun a b : Rec => a.num ≠ b.num) [c3wrec1, c3wrec2] ∧
    List.Pairwise (fun a b : Rec => keyLt (numKeyD b) (numKeyD a) = false)
      [c3wrec1, c3wrec2] ∧
    keyLt (numKeyD c3wrec1) (numKeyD c3wrec2) = true := by
  have h := claim3_sorted [c3wpage] [c3wrec1, c3wrec2] (by decide)
  refine ⟨h.1, h.2.1, ?_⟩
  have h3 := h.2.2 (by decide) ⟨0, by decide⟩ ⟨1, by decide⟩
  exact h3.mp (by decide)

/-- Claim C4 (confirmed): no field of a retained record exceeds its
declared maximum character length (description 1500, rationale 1000,
impact 1000, audit 2500, remediation 1500, default value 500,
references 800). -/
theorem claim4_truncation (pages : List Str) (l : List Rec) (r : Rec)
    (h : extractRecommendations pages = some l) (hr : r ∈ l) :
    r.description.length ≤ 1500 ∧ r.rationale.length ≤ 1000 ∧
    r.impact.length ≤ 1000 ∧ r.audit.length ≤ 2500 ∧
    r.remediation.length ≤ 1500 ∧ r.default_value.length ≤ 500 ∧
    r.references.length ≤ 800 := by
  rcases (mem_extractRaw (mem_final h hr)).2 with ⟨n, t, s, c, hre, -⟩
  rw [hre]
  exact extractDetails_bounds n (strip t) s c

/-- Claim C4, witness at the concrete example page. -/
theorem claim4_witness :
    c1rec.description.length ≤ 1500 ∧ c1rec.rationale.length ≤ 1000 ∧
    c1rec.impact.length ≤ 1000 ∧ c1rec.audit.length ≤ 2500 ∧
    c1rec.remediation.length ≤ 1500 ∧ c1rec.default_value.length ≤ 500 ∧
    c1rec.references.length ≤ 800 :=
  claim4_truncation [c1page] [c1rec] c1rec (by decide) (by decide)

/-- Claim C5 (confirmed): section grouping is a partition — group keys are
pairwise distinct, each group is exactly the (order-preserving) filter of
the record list by the integer-string before the first `.` of `num`, and
every record appears in the (unique) group of its own leading component. -/
theorem claim5_partition (l : List Rec) :
    ((organizeBySection l).map Prod.fst).Pairwise (fun a b => a ≠ b) ∧
    (∀ kg ∈ organizeBySection l,
      kg.2 = l.filter (fun r => decide (leadComp r.num = kg.1))) ∧
    (∀ r ∈ l, ∃ kg ∈ organizeBySection l, kg.1 = leadComp r.num ∧ r ∈ kg.2) := by
  refine ⟨org_keys_pairwise l, fun kg hkg => org_group_eq_filter hkg, ?_⟩
  intro r hr
  have hmem : r ∈ l.filter (fun r' => decide (leadComp r'.num = leadComp r.num)) :=
    List.mem_filter.mpr ⟨hr, by simp⟩
  have hlk := org_lookup l (leadComp r.num)
  cases halk : alookup (organizeBySection l) (leadComp r.num) with
  | none =>
    rw [halk] at hlk
    simp only [Option.getD_none] at hlk
    rw [← hlk] at hmem
    simp at hmem
  | some g =>
    have hkg := alookup_mem halk
    refine ⟨(leadComp r.num, g), hkg, rfl, ?_⟩
    rw [halk] at hlk
    simp only [Option.getD_some] at hlk
    rw [hlk]
    exact hmem

/-- Claim C5, witness at a concrete two-record list spanning one section. -/
theorem claim5_witness :
    [c3rec1, c3rec2].filter
      (fun r => decide (leadComp r.num = "1".data)) = [c3rec1, c3rec2] ∧
    ∃ kg ∈ organizeBySection [c3rec1, c3rec2],
      kg.1 = leadComp c3rec1.num ∧ c3rec1 ∈ kg.2 := by
  have h := claim5_partition [c3rec1, c3rec2]
  refine ⟨?_, h.2.2 c3rec1 (by decide)⟩
  have h2 := h.2.1 ("1".data, [c3rec1, c3rec2]) (by decide)
  exact h2.symm

/-- The long section key used to exercise sheet-name truncation. -/
def c6key : Str := "123456789012345678901234567890".data

/-- Claim C6 (confirmed): for every section key the created sheet's name
equals the Index sheet's Tab Name cell, it never exceeds 31 characters,
and when the underlying `"<num>. <name>"` string is longer than 31
characters it is cut to exactly 31. -/
theorem claim6_sheet_names (k : Str) :
    sectionSheetName k = indexTabName k ∧
    (sectionSheetName k).length ≤ 31 ∧
    (31 < (k ++ ". ".data ++ sectionDisplayName k).length →
      (sectionSheetName k).length = 31) := by
  refine ⟨rfl, List.length_take_le _ _, ?_⟩
  intro h
  unfold sectionSheetName
  rw [List.length_take]
  exact Nat.min_eq_left (by omega)

/-- Claim C6, witness at a key long enough to force truncation. -/
theorem claim6_witness :
    sectionSheetName c6key = indexTabName c6key ∧
    (sectionSheetName c6key).length = 31 := by
  have h := claim6_sheet_names c6key
  exact ⟨h.1, h.2.2 (by decide)⟩

/-- Claim C7 (amended): start-page detection returns the index of the
first page among the first 30 whose text contains a newline immediately
followed by the `1.1` start pattern, and page index 15 when no scanned
page does.  (The original claim's "contains a line beginning with ..."
also counts a page whose very first line starts with the pattern; the
code's regex `\n1\.1...` requires a preceding newline and misses that
page.) -/
theorem claim7_start_page (pages : List Str) :
    (∀ (i : Nat) (hi : i < (pages.take 30).length),
      SpecStartPage ((pages.take 30).get ⟨i, hi⟩) →
      (∀ (j : Nat) (hj : j < (pages.take 30).length), j < i →
        ¬ SpecStartPage ((pages.take 30).get ⟨j, hj⟩)) →
      findStartPage pages = i) ∧
    ((∀ (j : Nat) (hj : j < (pages.take 30).length),
        ¬ SpecStartPage ((pages.take 30).get ⟨j, hj⟩)) →
      findStartPage pages = 15) := by
  constructor
  · intro i hi hs hmin
    unfold findStartPage
    have hmin' : ∀ (j : Nat) (hj : j < (pages.take 30).length), j < i →
        pageHasStart ((pages.take 30).get ⟨j, hj⟩) = false := by
      intro j hj hji
      cases hp : pageHasStart ((pages.take 30).get ⟨j, hj⟩)
      · rfl
      · exact absurd (pageHasStart_iff_spec.mp hp) (hmin j hj hji)
    have := findStartGo_first (pages.take 30) 0 i hi
      (pageHasStart_iff_spec.mpr hs) hmin'
    simpa using this
  · intro hall
    unfold findStartPage
    apply findStartGo_none
    intro j hj
    cases hp : pageHasStart ((pages.take 30).get ⟨j, hj⟩)
    · rfl
    · exact absurd (pageHasStart_iff_spec.mp hp) (hall j hj)

/-- Claim C7, counterexample to the claim as stated: `c7page`'s only line
(`"1.1 Apple"`) begins with the start pattern, so the claim demands page
index 0, but the code's newline-anchored regex misses it and the fallback
15 is returned instead. -/
theorem claim7_counterexample :
    (∃ ln ∈ splitOnCh '\n' c7page, SpecStartTail ln) ∧
    findStartPage [c7page] = 15 ∧ findStartPage [c7page] ≠ 0 := by
  refine ⟨⟨c7page, by decide, ?_⟩, by decide, by decide⟩
  exact ⟨[], [' '], 'A', "pple".data, by decide, Or.inl rfl, by decide,
    by decide, by decide⟩

/-- Claim C7, witness: a two-page document whose second page matches is
detected at index 1, and a document with no match falls back to 15. -/
theorem claim7_witness :
    findStartPage ["xx".data, "a\n1.1 B".data] = 1 ∧
    findStartPage ["xx".data] = 15 := by
  constructor
  · refine (claim7_start_page ["xx".data, "a\n1.1 B".data]).1 1 (by decide) ?_ ?_
    · refine ⟨"a".data, "1.1 B".data, by decide, ?_⟩
      exact ⟨[], [' '], 'B', [], by decide, Or.inl rfl, by decide,
        by decide, by decide⟩
    · intro j hj hji
      have hj0 : j = 0 := by omega
      subst hj0
      intro hsp
      have : pageHasStart "xx".data = true := by
        have heq : ((["xx".data, "a\n1.1 B".data].take 30).get ⟨0, hj⟩) = "xx".data := rfl
        rw [heq] at hsp
        exact pageHasStart_iff_spec.mpr hsp
      exact absurd this (by decide)
  · refine (claim7_start_page ["xx".data]).2 ?_
    intro j hj
    have hlen : ((["xx".data] : List Str).take 30).length = 1 := rfl
    have hj0 : j = 0 := by omega
    subst hj0
    intro hsp
    have : pageHasStart "xx".data = true := by
      have heq : ((["xx".data].take 30).get ⟨0, hj⟩) = "xx".data := rfl
      rw [heq] at hsp
      exact pageHasStart_iff_spec.mpr hsp
    exact absurd this (by decide)

/-- Claim C8 (confirmed): every recommendation row's height is the maximal
newline-separated line count over the composed description-and-impact
cell, the audit cell and the remediation cell, times the fixed per-line
height 14, clamped to the interval [80, 350]. -/
theorem claim8_row_height (r : Rec) :
    80 ≤ rowHeight r ∧ rowHeight r ≤ 350 ∧
    rowHeight r = min (max (max (lineCount (descFull r))
      (max (lineCount r.audit) (lineCount r.remediation)) * 14) 80) 350 := by
  refine ⟨?_, ?_, rfl⟩
  · exact le_min (le_max_right _ _) (by omega)
  · exact min_le_right _ _

/-- Claim C9 (confirmed): degraded inputs are not hard failures — the
pipeline always completes; with no accepted recommendation the workbook
holds exactly the index sheet; with no metadata match both metadata fields
stay empty. -/
theorem claim9_graceful (pages : List Str) :
    (runPipeline pages).isSome ∧
    (extractRaw pages = [] →
      runPipeline pages = some (extractMetadata pages, ["📑 INDEX".data])) ∧
    ((∀ p ∈ pages.take 5, searchTitle p = none ∧ searchVersion p = none) →
      extractMetadata pages = ([], [])) :=
  ⟨runPipeline_isSome pages, fun h => runPipeline_empty h,
   fun h => extractMetadata_none h⟩

/-- Claim C9, witness at a one-page document with nothing recognisable. -/
theorem claim9_witness :
    runPipeline ["hello".data] = some (([], []), ["📑 INDEX".data]) ∧
    extractMetadata ["hello".data] = ([], []) := by
  have h := claim9_graceful ["hello".data]
  have hm := h.2.2 (by decide)
  have hp := h.2.1 (by decide)
  rw [hm] at hp
  exact ⟨hp, hm⟩

/-- Claim C10 (confirmed): every dot-separated component of an appended
record's `num` is a nonempty digit string, so the integer conversion of
the sort key is always defined and the sort step cannot fail on extractor
output. -/
theorem claim10_sort_safe (pages : List Str) :
    (∀ r ∈ extractRaw pages, ∀ comp ∈ splitOnDot r.num,
      comp ≠ [] ∧ comp.all isDigitC = true ∧ (parseIntStrict comp).isSome) ∧
    (extractRecommendations pages).isSome := by
  constructor
  · intro r hr comp hcomp
    have h := (extractRaw_num_wf hr).2 comp hcomp
    refine ⟨h.1, List.all_eq_true.mpr h.2, ?_⟩
    unfold parseIntStrict
    rw [if_pos ⟨h.1, List.all_eq_true.mpr h.2⟩]
    simp
  · rw [extractRecommendations_eq]
    simp

/-- Claim C10, witness at the concrete example page. -/
theorem claim10_witness :
    ("1".data ≠ ([] : Str) ∧ ("1".data).all isDigitC = true ∧
      (parseIntStrict "1".data).isSome) ∧
    (extractRecommendations [c1page]).isSome := by
  have h := claim10_sort_safe [c1page]
  exact ⟨h.1 c1rec (by decide) "1".data (by decide), h.2⟩

end CIS
